import Mathlib

/-!
Verification development for the funtoo-metatools repository.

Each Python function relevant to the checked claims is shallowly embedded as an
executable Lean definition, translated from the source files under the repository
(funtoo/pkgtools/autogen.py, funtoo/pkgtools/fetch.py, funtoo/pkgtools/http.py,
funtoo/cache/metadata.py, funtoo/merge/metadata.py, metatools/kit.py,
metatools/fastpull/blos.py, metatools/config/autogen.py).
-/

namespace Metatools

/-! ## funtoo/merge/metadata.py: strip_rev -/

/-- Python's `s.rstrip("0123456789")` on the character list of `s`:
drop all trailing ASCII digits. -/
def rstripDigits (l : List Char) : List Char :=
  (l.reverse.dropWhile Char.isDigit).reverse

/-- Embedding of `strip_rev` (funtoo/merge/metadata.py):
`num_strip = s.rstrip("0123456789")`; if `num_strip != s` and
`num_strip[-2:] == "-r"`, return `(num_strip[:-2], s[len(num_strip):])`,
else `(s, None)`. -/
def strip_rev (s : String) : String × Option String :=
  let l := s.data
  let numStrip := rstripDigits l
  if numStrip ≠ l ∧ numStrip.reverse.take 2 = ['r', '-'] then
    (⟨numStrip.take (numStrip.length - 2)⟩, some ⟨l.drop numStrip.length⟩)
  else
    (s, none)

theorem rstripDigits_append (l : List Char) :
    rstripDigits l ++ (l.reverse.takeWhile Char.isDigit).reverse = l := by
  unfold rstripDigits
  rw [← List.reverse_append, List.takeWhile_append_dropWhile, List.reverse_reverse]

theorem rstripDigits_suffix_digits (l : List Char) :
    ∀ c ∈ (l.reverse.takeWhile Char.isDigit).reverse, Char.isDigit c := by
  intro c hc
  rw [List.mem_reverse] at hc
  exact List.mem_takeWhile_imp hc

theorem rstripDigits_eq_self_iff (l : List Char) :
    rstripDigits l = l ↔ l.reverse.takeWhile Char.isDigit = [] := by
  constructor
  · intro h
    have hlen := congrArg List.length (rstripDigits_append l)
    rw [List.length_append, h] at hlen
    have h0 : (l.reverse.takeWhile Char.isDigit).reverse.length = 0 := by omega
    simpa [List.length_eq_zero] using h0
  · intro h
    have h2 := rstripDigits_append l
    rw [h] at h2
    simpa using h2

theorem takeWhile_append_of_all {p : Char → Bool} :
    ∀ (a b : List Char), (∀ c ∈ a, p c) → (a ++ b).takeWhile p = a ++ b.takeWhile p
  | [], _, _ => by simp
  | x :: xs, b, h => by
    have hx : p x := h x (by simp)
    simp only [List.cons_append, List.takeWhile_cons_of_pos hx, List.cons.injEq, true_and]
    exact takeWhile_append_of_all xs b (fun c hc => h c (by simp [hc]))

theorem dropWhile_append_of_all {p : Char → Bool} :
    ∀ (a b : List Char), (∀ c ∈ a, p c) → (a ++ b).dropWhile p = b.dropWhile p
  | [], _, _ => by simp
  | x :: xs, b, h => by
    have hx : p x := h x (by simp)
    simp only [List.cons_append, List.dropWhile_cons_of_pos hx]
    exact dropWhile_append_of_all xs b (fun c hc => h c (by simp [hc]))

/-- C10.
`strip_rev` round-trip: for every string `s`, `strip_rev s = (p, rev)` satisfies:
if `rev = none` then `p = s`; if `rev = some r` then `r` is a non-empty string of
decimal digits and `p ++ "-r" ++ r = s` (stated on the character lists); and
`rev` is non-`none` exactly when `s` ends with `"-r"` followed by one or more digits. -/
theorem strip_rev_round_trip (s : String) :
    (∀ p, strip_rev s = (p, none) → p = s) ∧
    (∀ p r, strip_rev s = (p, some r) →
      r.data ≠ [] ∧ (∀ c ∈ r.data, Char.isDigit c) ∧
      p.data ++ ('-' :: 'r' :: r.data) = s.data) ∧
    ((strip_rev s).2.isSome ↔
      ∃ q d, d ≠ [] ∧ (∀ c ∈ d, Char.isDigit c) ∧ s.data = q ++ '-' :: 'r' :: d) := by
  by_cases hcond : rstripDigits s.data ≠ s.data ∧
      (rstripDigits s.data).reverse.take 2 = ['r', '-']
  · have hres : strip_rev s =
        (⟨(rstripDigits s.data).take ((rstripDigits s.data).length - 2)⟩,
          some ⟨s.data.drop (rstripDigits s.data).length⟩) := by
      simp only [strip_rev]
      rw [if_pos hcond]
    obtain ⟨hne, htake⟩ := hcond
    obtain ⟨rest, hrest⟩ : ∃ rest, (rstripDigits s.data).reverse = 'r' :: '-' :: rest := by
      match hity : (rstripDigits s.data).reverse with
      | [] => rw [hity] at htake; simp at htake
      | [x] => rw [hity] at htake; simp at htake
      | x :: y :: rest =>
        rw [hity] at htake
        simp only [List.take, List.cons.injEq] at htake
        exact ⟨rest, by rw [htake.1, htake.2.1]⟩
    have hns : rstripDigits s.data = rest.reverse ++ ['-', 'r'] := by
      have h2 := congrArg List.reverse hrest
      simpa using h2
    have hlen : (rstripDigits s.data).length = rest.length + 2 := by
      rw [hns]; simp
    have htake_eq :
        (rstripDigits s.data).take ((rstripDigits s.data).length - 2) = rest.reverse := by
      rw [hns]
      have h3 : (rest.reverse ++ ['-', 'r']).length - 2 = rest.reverse.length := by simp
      rw [h3, List.take_left]
    have happ := rstripDigits_append s.data
    have hdrop_eq : s.data.drop (rstripDigits s.data).length =
        (s.data.reverse.takeWhile Char.isDigit).reverse := by
      have h4 := List.drop_left (rstripDigits s.data)
        ((s.data.reverse.takeWhile Char.isDigit).reverse)
      rw [happ] at h4
      exact h4
    have htl_ne : (s.data.reverse.takeWhile Char.isDigit).reverse ≠ [] := by
      intro h0
      apply hne
      rw [rstripDigits_eq_self_iff]
      have h1 := congrArg List.reverse h0
      simpa using h1
    have hldecomp :
        s.data = rest.reverse ++ '-' :: 'r' :: (s.data.reverse.takeWhile Char.isDigit).reverse := by
      conv_lhs => rw [← happ, hns]
      simp
    refine ⟨?_, ?_, ?_⟩
    · intro p h
      rw [hres] at h
      injection h with hp hr
      exact Option.noConfusion hr
    · intro p r h
      rw [hres] at h
      injection h with hp hr
      injection hr with hr2
      have hpd : p.data = rest.reverse := by
        rw [← hp]; exact htake_eq
      have hrd : r.data = (s.data.reverse.takeWhile Char.isDigit).reverse := by
        rw [← hr2]; exact hdrop_eq
      refine ⟨by rw [hrd]; exact htl_ne, ?_, ?_⟩
      · rw [hrd]; exact rstripDigits_suffix_digits s.data
      · rw [hpd, hrd]; exact hldecomp.symm
    · rw [hres]
      simp only [Option.isSome_some, true_iff]
      exact ⟨rest.reverse, (s.data.reverse.takeWhile Char.isDigit).reverse, htl_ne,
        rstripDigits_suffix_digits s.data, hldecomp⟩
  · have hres : strip_rev s = (s, none) := by
      simp only [strip_rev]
      rw [if_neg hcond]
    refine ⟨?_, ?_, ?_⟩
    · intro p h
      rw [hres] at h
      injection h with hp hr
      exact hp.symm
    · intro p r h
      rw [hres] at h
      injection h with hp hr
      exact Option.noConfusion hr
    · rw [hres]
      simp only [Option.isSome_none, Bool.false_eq_true, false_iff]
      rintro ⟨q, d, hd_ne, hd_dig, hdecomp⟩
      apply hcond
      have hrev : s.data.reverse = d.reverse ++ 'r' :: '-' :: q.reverse := by
        rw [hdecomp]; simp
      have hdig_rev : ∀ c ∈ d.reverse, Char.isDigit c := by
        intro c hc
        rw [List.mem_reverse] at hc
        exact hd_dig c hc
      have hr_not : ¬ (Char.isDigit 'r' = true) := by decide
      have hdw : s.data.reverse.dropWhile Char.isDigit = 'r' :: '-' :: q.reverse := by
        rw [hrev, dropWhile_append_of_all _ _ hdig_rev, List.dropWhile_cons_of_neg hr_not]
      have hns : rstripDigits s.data = q ++ ['-', 'r'] := by
        unfold rstripDigits
        rw [hdw]
        simp
      constructor
      · rw [hns, hdecomp]
        intro hbad
        have hlenbad := congrArg List.length hbad
        simp only [List.length_append, List.length_cons, List.length_nil] at hlenbad
        have hd0 : d.length = 0 := by omega
        exact hd_ne (List.length_eq_zero.mp hd0)
      · rw [hns]
        simp

/-- C10 witness: `strip_rev "pkg-1.0-r5"` yields `("pkg-1.0", some "5")`, and
the round-trip glues the pieces back into the input. -/
theorem strip_rev_round_trip_witness :
    ("pkg-1.0" : String).data ++ ('-' :: 'r' :: ("5" : String).data) =
      ("pkg-1.0-r5" : String).data :=
  ((strip_rev_round_trip "pkg-1.0-r5").2.1 "pkg-1.0" "5" rfl).2.2

/-! ## funtoo/cache/metadata.py: get_atom (kit metadata cache lookup) -/

/-- One record of the kit metadata cache (`repo_obj.KIT_CACHE[atom]`). The
`manifest_md5` field models the JSON field: `none` means the key is absent from
the record (`"manifest_md5" not in existing`); `some none` means the key is
present with value `null` (the no-Manifest case); `some (some h)` is a real md5. -/
structure KitCacheRecord where
  md5 : String
  manifest_md5 : Option (Option String)
  eclasses : List (String × String)
  deriving DecidableEq, Repr

/-- The eclass-check loop of `get_atom`: walk `existing["eclasses"]`, setting
`bad` (and breaking) at the first `(eclass, md5)` pair whose eclass is absent
from `eclass_hashes` or hashes differently. An empty list leaves `bad` false,
exactly as the Python `elif existing["eclasses"]:` guard does. -/
def eclassesBad (eclass_hashes : String → Option String) :
    List (String × String) → Bool
  | [] => false
  | (eclass, md5) :: rest =>
    match eclass_hashes eclass with
    | none => true
    | some h => if h ≠ md5 then true else eclassesBad eclass_hashes rest

/-- Embedding of `get_atom` (funtoo/cache/metadata.py). `kit_cache` models
`repo_obj.KIT_CACHE` (an atom-indexed dictionary), `eclass_hashes` the
eclass-name-to-md5 dictionary, and `manifest_md5` the caller's Manifest md5
(`none` = Python `None`, the no-Manifest case). -/
def get_atom (kit_cache : String → Option KitCacheRecord)
    (eclass_hashes : String → Option String)
    (atom : String) (md5 : String) (manifest_md5 : Option String) :
    Option KitCacheRecord :=
  match kit_cache atom with
  | none => none
  | some existing =>
    if existing.md5 = md5 then
      let bad :=
        match existing.manifest_md5 with
        | none => true
        | some m =>
          if manifest_md5 ≠ m then true
          else eclassesBad eclass_hashes existing.eclasses
      if bad then none else some existing
    else none

theorem eclassesBad_eq_false_iff (eclass_hashes : String → Option String)
    (l : List (String × String)) :
    eclassesBad eclass_hashes l = false ↔
      ∀ p ∈ l, eclass_hashes p.1 = some p.2 := by
  induction l with
  | nil => simp [eclassesBad]
  | cons hd tl ih =>
    obtain ⟨eclass, md5⟩ := hd
    simp only [eclassesBad]
    match hh : eclass_hashes eclass with
    | none => simp [hh]
    | some h =>
      by_cases hne : h = md5
      · subst hne
        simp only [ne_eq, not_true_eq_false, if_false, ih, List.mem_cons]
        constructor
        · intro hall p hp
          rcases hp with hp | hp
          · subst hp; exact hh
          · exact hall p hp
        · intro hall p hp
          exact hall p (Or.inr hp)
      · simp only [ne_eq, hne, not_false_eq_true, if_true]
        constructor
        · intro hfalse; exact absurd hfalse (by simp)
        · intro hall
          have := hall (eclass, md5) (by simp)
          rw [hh] at this
          exact absurd (Option.some.injEq _ _ ▸ this) hne

/-- C2.
`get_atom` returns the stored record exactly when the atom is present, the
record's md5 equals the supplied ebuild md5, the record carries a
`manifest_md5` field equal to the supplied value (`null`, i.e. `none`,
being a legitimate value that must match), and every `(name, md5)` pair in
the record's eclasses list names an eclass present in the supplied hash set
with an equal md5; in every other case it returns `none`. -/
theorem get_atom_hit_iff (kit_cache : String → Option KitCacheRecord)
    (eclass_hashes : String → Option String)
    (atom md5 : String) (manifest_md5 : Option String) (r : KitCacheRecord) :
    get_atom kit_cache eclass_hashes atom md5 manifest_md5 = some r ↔
      (kit_cache atom = some r ∧ r.md5 = md5 ∧
        r.manifest_md5 = some manifest_md5 ∧
        ∀ p ∈ r.eclasses, eclass_hashes p.1 = some p.2) := by
  unfold get_atom
  match hk : kit_cache atom with
  | none => simp
  | some existing =>
    by_cases hmd5 : existing.md5 = md5
    · simp only [hmd5, if_true]
      match hm : existing.manifest_md5 with
      | none =>
        simp only [if_true]
        constructor
        · intro h; exact absurd h (by simp)
        · rintro ⟨hr, -, hman, -⟩
          injection hr with hr; subst hr
          rw [hm] at hman
          exact absurd hman (by simp)
      | some m =>
        by_cases hmm : manifest_md5 = m
        · subst hmm
          simp only [ne_eq, not_true_eq_false, if_false]
          by_cases hbad : eclassesBad eclass_hashes existing.eclasses = true
          · simp only [hbad, if_true]
            constructor
            · intro h; exact absurd h (by simp)
            · rintro ⟨hr, -, -, hecl⟩
              injection hr with hr; subst hr
              rw [(eclassesBad_eq_false_iff eclass_hashes existing.eclasses).mpr hecl] at hbad
              exact absurd hbad (by simp)
          · rw [Bool.not_eq_true] at hbad
            simp only [hbad, Bool.false_eq_true, if_false, Option.some.injEq]
            constructor
            · intro h; subst h
              exact ⟨rfl, hmd5, hm, (eclassesBad_eq_false_iff _ _).mp hbad⟩
            · rintro ⟨hr, -, -, -⟩
              exact hr
        · simp only [ne_eq, hmm, not_false_eq_true, if_true]
          constructor
          · intro h; exact absurd h (by simp)
          · rintro ⟨hr, -, hman, -⟩
            injection hr with hr; subst hr
            rw [hm] at hman
            injection hman with hman
            exact (hmm hman.symm).elim
    · simp only [hmd5, if_false]
      constructor
      · intro h; exact absurd h (by simp)
      · rintro ⟨hr, hmd, -, -⟩
        injection hr with hr; subst hr
        exact absurd hmd hmd5

/-- C2 witness: a record with md5 `"A"`, a present-but-null `manifest_md5`
(the no-Manifest case) and no eclasses is returned for a lookup supplying
md5 `"A"` and a null Manifest md5. -/
theorem get_atom_hit_iff_witness :
    get_atom
        (fun a => if a = "sys-apps/foo-1.0"
          then some ⟨"A", some none, []⟩ else none)
        (fun _ => none) "sys-apps/foo-1.0" "A" none =
      some ⟨"A", some none, []⟩ :=
  (get_atom_hit_iff
      (fun a => if a = "sys-apps/foo-1.0" then some ⟨"A", some none, []⟩ else none)
      (fun _ => none) "sys-apps/foo-1.0" "A" none ⟨"A", some none, []⟩).mpr
    ⟨by simp, rfl, rfl, by simp⟩

/-! ## funtoo/pkgtools/autogen.py: generate_manifests, with the
`manifest_lines = defaultdict(set)` model field of metatools/config/autogen.py -/

/-- `pkgtools.model.manifest_lines`, a `defaultdict(set)` mapping each Manifest
file path to the set of DIST lines accumulated for it during the run
(metatools/config/autogen.py). Modelled as an association list of
(file, line list) pairs; the set semantics lives in `updateLines`. -/
abbrev ManifestLines := List (String × List String)

/-- Python `set.add`: insert a line unless already present. -/
def updateLines (lines : List String) (line : String) : List String :=
  if line ∈ lines then lines else lines ++ [line]

/-- Modelled from the spec: "Global manifest aggregation: `MANIFEST_LINES:
map<catpkg_dir, set<line>>` is updated by `EbuildBuilder` as DIST lines are
produced." The metatools `BreezyBuild` performing
`model.manifest_lines[manifest_file].add(line)` is not among the source files;
this embeds that single defaultdict(set) insertion. -/
def addManifestLine : ManifestLines → String → String → ManifestLines
  | [], file, line => [(file, [line])]
  | (f, lines) :: rest, file, line =>
    if f = file then (f, updateLines lines line) :: rest
    else (f, lines) :: addManifestLine rest file line

/-- The whole run's DIST-line contributions, applied in order to the initially
empty `manifest_lines` dictionary. -/
def buildManifestLines (contribs : List (String × String)) : ManifestLines :=
  contribs.foldl (fun m c => addManifestLine m c.1 c.2) []

/-- Embedding of `generate_manifests` (funtoo/pkgtools/autogen.py): for each
`(manifest_file, manifest_lines)` item of the model's dictionary, write the
file once with `sorted(list(manifest_lines))` as its contents. The writes are
returned as `(path, sorted line list)` pairs, in dictionary order. -/
def generate_manifests (m : ManifestLines) : List (String × List String) :=
  m.map (fun p => (p.1, List.insertionSort (· ≤ ·) p.2))

/-- Association-list lookup mirroring Python dictionary indexing. -/
def lookupML : ManifestLines → String → Option (List String)
  | [], _ => none
  | (f, lines) :: rest, file => if f = file then some lines else lookupML rest file

theorem updateLines_mem (lines : List String) (line a : String) :
    a ∈ updateLines lines line ↔ a ∈ lines ∨ a = line := by
  unfold updateLines
  by_cases h : line ∈ lines
  · rw [if_pos h]
    constructor
    · exact Or.inl
    · rintro (ha | rfl)
      · exact ha
      · exact h
  · rw [if_neg h]
    simp

theorem updateLines_nodup {lines : List String} (h : lines.Nodup) (line : String) :
    (updateLines lines line).Nodup := by
  unfold updateLines
  by_cases hmem : line ∈ lines
  · rwa [if_pos hmem]
  · rw [if_neg hmem]
    simpa [List.nodup_append] using ⟨h, hmem⟩

theorem lookup_addManifestLine (m : ManifestLines) (file line f' : String) :
    lookupML (addManifestLine m file line) f' =
      if f' = file then some (updateLines ((lookupML m file).getD []) line)
      else lookupML m f' := by
  induction m with
  | nil =>
    by_cases h : f' = file
    · subst h; simp [addManifestLine, lookupML, updateLines]
    · have h2 : ¬ file = f' := fun hh => h hh.symm
      simp [addManifestLine, lookupML, h, h2]
  | cons hd rest ih =>
    obtain ⟨f, lines⟩ := hd
    by_cases hf : f = file
    · subst hf
      simp only [addManifestLine, if_pos rfl, lookupML]
      by_cases h' : f = f'
      · subst h'
        simp [lookupML]
      · rw [if_neg h', if_neg (fun h => h' h.symm), if_neg h']
    · simp only [addManifestLine, if_neg hf, lookupML]
      by_cases h' : f = f'
      · subst h'
        rw [if_pos rfl, if_neg (fun h => hf h), if_pos rfl]
      · rw [if_neg h', ih, if_neg h']

theorem lookup_isSome_iff_mem_keys (m : ManifestLines) (f : String) :
    (lookupML m f).isSome = true ↔ f ∈ m.map Prod.fst := by
  induction m with
  | nil => simp [lookupML]
  | cons hd rest ih =>
    obtain ⟨g, lines⟩ := hd
    by_cases h : g = f
    · subst h; simp [lookupML]
    · simp only [lookupML, if_neg h, List.map_cons, List.mem_cons, ih]
      constructor
      · exact Or.inr
      · rintro (hg | hm)
        · exact absurd hg.symm h
        · exact hm

theorem keys_addManifestLine (m : ManifestLines) (file line : String) :
    (addManifestLine m file line).map Prod.fst =
      if (lookupML m file).isSome then m.map Prod.fst
      else m.map Prod.fst ++ [file] := by
  induction m with
  | nil => simp [addManifestLine, lookupML]
  | cons hd rest ih =>
    obtain ⟨f, lines⟩ := hd
    by_cases hf : f = file
    · subst hf; simp [addManifestLine, lookupML]
    · simp only [addManifestLine, if_neg hf, List.map_cons, lookupML, ih]
      by_cases hs : (lookupML rest file).isSome
      · simp [hs, hf]
      · simp only [Bool.not_eq_true] at hs
        simp [hs, hf]

theorem keys_nodup_addManifestLine {m : ManifestLines} (file line : String)
    (h : (m.map Prod.fst).Nodup) :
    ((addManifestLine m file line).map Prod.fst).Nodup := by
  rw [keys_addManifestLine]
  by_cases hs : (lookupML m file).isSome
  · rwa [if_pos hs]
  · rw [if_neg hs]
    have hnm : file ∉ m.map Prod.fst := by
      rw [← lookup_isSome_iff_mem_keys]
      simpa using hs
    refine List.Nodup.append h (List.nodup_singleton file) ?_
    intro a ha hb
    rw [List.mem_singleton] at hb
    subst hb
    exact hnm ha

theorem lookup_build_mem (contribs : List (String × String)) :
    ∀ (m : ManifestLines) (f line : String),
      (line ∈ ((lookupML (contribs.foldl (fun m c => addManifestLine m c.1 c.2) m) f).getD []) ↔
        line ∈ ((lookupML m f).getD []) ∨ (f, line) ∈ contribs) := by
  induction contribs with
  | nil => simp
  | cons c rest ih =>
    intro m f line
    rw [List.foldl_cons, ih (addManifestLine m c.1 c.2) f line,
      lookup_addManifestLine]
    by_cases hf : f = c.1
    · subst hf
      rw [if_pos rfl]
      simp only [Option.getD_some, updateLines_mem, List.mem_cons]
      constructor
      · rintro ((hm | rfl) | hr)
        · exact Or.inl hm
        · exact Or.inr (Or.inl (by rw [Prod.ext_iff]; exact ⟨rfl, rfl⟩))
        · exact Or.inr (Or.inr hr)
      · rintro (hm | (hc | hr))
        · exact Or.inl (Or.inl hm)
        · rw [Prod.ext_iff] at hc
          exact Or.inl (Or.inr hc.2)
        · exact Or.inr hr
    · rw [if_neg hf]
      simp only [List.mem_cons]
      constructor
      · rintro (hm | hr)
        · exact Or.inl hm
        · exact Or.inr (Or.inr hr)
      · rintro (hm | (hc | hr))
        · exact Or.inl hm
        · rw [Prod.ext_iff] at hc
          exact absurd hc.1 hf
        · exact Or.inr hr

theorem lookup_build_isSome (contribs : List (String × String)) :
    ∀ (m : ManifestLines) (f : String),
      ((lookupML (contribs.foldl (fun m c => addManifestLine m c.1 c.2) m) f).isSome = true ↔
        (lookupML m f).isSome = true ∨ ∃ line, (f, line) ∈ contribs) := by
  induction contribs with
  | nil => simp
  | cons c rest ih =>
    intro m f
    rw [List.foldl_cons, ih (addManifestLine m c.1 c.2) f, lookup_addManifestLine]
    by_cases hf : f = c.1
    · subst hf
      rw [if_pos rfl]
      simp only [Option.isSome_some, true_or, true_iff]
      exact Or.inr ⟨c.2, by simp [List.mem_cons, Prod.ext_iff]⟩
    · rw [if_neg hf]
      constructor
      · rintro (hm | ⟨line, hr⟩)
        · exact Or.inl hm
        · exact Or.inr ⟨line, List.mem_cons_of_mem _ hr⟩
      · rintro (hm | ⟨line, hr⟩)
        · exact Or.inl hm
        · rcases List.mem_cons.mp hr with hc | hr'
          · rw [Prod.ext_iff] at hc
            exact absurd hc.1 hf
          · exact Or.inr ⟨line, hr'⟩

theorem nodup_lines_build (contribs : List (String × String)) :
    ∀ (m : ManifestLines),
      (∀ f ls, lookupML m f = some ls → ls.Nodup) →
      ∀ f ls,
        lookupML (contribs.foldl (fun m c => addManifestLine m c.1 c.2) m) f = some ls →
        ls.Nodup := by
  induction contribs with
  | nil => intro m h; exact h
  | cons c rest ih =>
    intro m h
    rw [List.foldl_cons]
    apply ih
    intro f ls hls
    rw [lookup_addManifestLine] at hls
    by_cases hf : f = c.1
    · rw [if_pos hf] at hls
      injection hls with hls
      subst hls
      apply updateLines_nodup
      match hm : lookupML m c.1 with
      | none => simp
      | some ls' => simpa using h c.1 ls' hm
    · rw [if_neg hf] at hls
      exact h f ls hls

theorem keys_nodup_build (contribs : List (String × String)) :
    ∀ (m : ManifestLines),
      (m.map Prod.fst).Nodup →
      ((contribs.foldl (fun m c => addManifestLine m c.1 c.2) m).map Prod.fst).Nodup := by
  induction contribs with
  | nil => intro m h; exact h
  | cons c rest ih =>
    intro m h
    rw [List.foldl_cons]
    exact ih _ (keys_nodup_addManifestLine c.1 c.2 h)

theorem mem_iff_lookup {m : ManifestLines} (hnd : (m.map Prod.fst).Nodup)
    (f : String) (ls : List String) :
    (f, ls) ∈ m ↔ lookupML m f = some ls := by
  induction m with
  | nil => simp [lookupML]
  | cons hd rest ih =>
    obtain ⟨g, gl⟩ := hd
    simp only [List.map_cons, List.nodup_cons] at hnd
    by_cases hg : g = f
    · subst hg
      have hlk : lookupML ((g, gl) :: rest) g = some gl := by simp [lookupML]
      rw [hlk, List.mem_cons]
      constructor
      · rintro (hc | hm)
        · rw [Prod.ext_iff] at hc
          simp only at hc
          rw [hc.2]
        · exact absurd (List.mem_map_of_mem Prod.fst hm) hnd.1
      · intro hsome
        injection hsome with hsome
        exact Or.inl (by rw [hsome])
    · have hlk : lookupML ((g, gl) :: rest) f = lookupML rest f := by
        simp [lookupML, hg]
      rw [hlk, List.mem_cons, ← ih hnd.2]
      constructor
      · rintro (hc | hm)
        · rw [Prod.ext_iff] at hc
          simp only at hc
          exact absurd hc.1.symm hg
        · exact hm
      · exact Or.inr

/-- C1.
After all autogen work units have completed, `generate_manifests` writes each
catpkg's Manifest file exactly once (the sequence of written paths has no
duplicate, and a path is written exactly when some DIST line was contributed to
it during the run), and for every catpkg the written file contains exactly the
union of the DIST lines contributed by all ebuild units of that catpkg, in
lexicographically sorted order with no duplicate line. -/
theorem generate_manifests_spec (contribs : List (String × String)) :
    ((generate_manifests (buildManifestLines contribs)).map Prod.fst).Nodup ∧
    (∀ f, f ∈ (generate_manifests (buildManifestLines contribs)).map Prod.fst ↔
      ∃ line, (f, line) ∈ contribs) ∧
    (∀ f ls, (f, ls) ∈ generate_manifests (buildManifestLines contribs) →
      ls.Sorted (· ≤ ·) ∧ ls.Nodup ∧ (∀ line, line ∈ ls ↔ (f, line) ∈ contribs)) := by
  have hkeys : (generate_manifests (buildManifestLines contribs)).map Prod.fst =
      (buildManifestLines contribs).map Prod.fst := by
    unfold generate_manifests
    rw [List.map_map]
    rfl
  have hnd : ((buildManifestLines contribs).map Prod.fst).Nodup :=
    keys_nodup_build contribs [] (by simp)
  refine ⟨by rw [hkeys]; exact hnd, ?_, ?_⟩
  · intro f
    rw [hkeys, ← lookup_isSome_iff_mem_keys]
    unfold buildManifestLines
    rw [lookup_build_isSome contribs [] f]
    simp [lookupML]
  · intro f ls hmem
    unfold generate_manifests at hmem
    rw [List.mem_map] at hmem
    obtain ⟨⟨g, gl⟩, hgm, hgeq⟩ := hmem
    rw [Prod.ext_iff] at hgeq
    obtain ⟨hg1, hg2⟩ := hgeq
    simp only at hg1 hg2
    subst hg1
    have hperm : (List.insertionSort (· ≤ ·) gl).Perm gl :=
      List.perm_insertionSort (· ≤ ·) gl
    have hlk : lookupML (buildManifestLines contribs) g = some gl :=
      (mem_iff_lookup hnd g gl).mp hgm
    refine ⟨?_, ?_, ?_⟩
    · rw [← hg2]
      exact List.sorted_insertionSort (· ≤ ·) gl
    · rw [← hg2]
      exact hperm.nodup_iff.mpr
        (nodup_lines_build contribs [] (by simp [lookupML]) g gl hlk)
    · intro line
      rw [← hg2, hperm.mem_iff]
      have h1 := lookup_build_mem contribs [] g line
      unfold buildManifestLines at hlk
      rw [hlk] at h1
      simpa [lookupML] using h1

/-- C1 witness: a run contributing one DIST line to one catpkg produces a
Manifest whose single-line content is free of duplicates. -/
theorem generate_manifests_spec_witness :
    (["L"] : List String).Nodup :=
  ((generate_manifests_spec [("f", "L")]).2.2 "f" ["L"]
    (List.mem_singleton.mpr rfl)).2.1

/-! ## funtoo/merge/metadata.py: AUXDB_LINES; metatools/kit.py: the
`metadata_out` block of KitGenerator.get_ebuild_metadata -/

/-- The literal key list inside the `AUXDB_LINES = sorted([...])` expression
(funtoo/merge/metadata.py), in its written order. -/
def AUXDB_KEYS : List String :=
  ["DEPEND", "RDEPEND", "SLOT", "SRC_URI", "RESTRICT", "HOMEPAGE", "LICENSE",
   "DESCRIPTION", "KEYWORDS", "IUSE", "REQUIRED_USE", "PDEPEND", "BDEPEND",
   "EAPI", "PROPERTIES", "DEFINED_PHASES"]

/-- Python's `str` comparison: lexicographic on code points. -/
def pyCharsLe : List Char → List Char → Bool
  | [], _ => true
  | _ :: _, [] => false
  | a :: as, b :: bs =>
    if a.toNat < b.toNat then true
    else if b.toNat < a.toNat then false
    else pyCharsLe as bs

/-- Python's `a <= b` on strings. -/
def pyStrLe (a b : String) : Bool := pyCharsLe a.data b.data

/-- `AUXDB_LINES = sorted([ ... ])` (funtoo/merge/metadata.py): the key list is
passed through Python's `sorted` (code-point lexicographic) before being used. -/
def AUXDB_LINES : List String :=
  List.insertionSort (fun a b => pyStrLe a b = true) AUXDB_KEYS

/-- The `metadata_out` accumulation of KitGenerator.get_ebuild_metadata
(metatools/kit.py): `for key in AUXDB_LINES: if infos[key] != "":
metadata_out += key + "=" + infos[key] + "\n"`, then
`if len(eclass_out): metadata_out += "_eclasses_=" + eclass_out[1:] + "\n"`,
then `metadata_out += "_md5_=" + ebuild_md5 + "\n"`. -/
def metadata_out (infos : String → String) (eclass_out ebuild_md5 : String) : String :=
  let fields := AUXDB_LINES.foldl
    (fun acc key => if infos key ≠ "" then acc ++ key ++ "=" ++ infos key ++ "\n" else acc) ""
  let withEclasses :=
    if eclass_out.length ≠ 0 then fields ++ "_eclasses_=" ++ eclass_out.drop 1 ++ "\n"
    else fields
  withEclasses ++ "_md5_=" ++ ebuild_md5 ++ "\n"

theorem AUXDB_LINES_eq :
    AUXDB_LINES =
      ["BDEPEND", "DEFINED_PHASES", "DEPEND", "DESCRIPTION", "EAPI", "HOMEPAGE",
       "IUSE", "KEYWORDS", "LICENSE", "PDEPEND", "PROPERTIES", "RDEPEND",
       "REQUIRED_USE", "RESTRICT", "SLOT", "SRC_URI"] := by decide

/-- C3 counterexample.
With every AUXDB field nonempty (value `"v"`), no inherited eclass, and ebuild
md5 `"m"`, the line block written to `metadata/md5-cache/<atom>` is not the
block whose fields follow the claimed order DEPEND, RDEPEND, SLOT, SRC_URI,
RESTRICT, HOMEPAGE, LICENSE, DESCRIPTION, KEYWORDS, IUSE, REQUIRED_USE,
PDEPEND, BDEPEND, EAPI, PROPERTIES, DEFINED_PHASES. -/
theorem metadata_out_claim_order_counterexample :
    metadata_out (fun _ => "v") "" "m" ≠
      (["DEPEND", "RDEPEND", "SLOT", "SRC_URI", "RESTRICT", "HOMEPAGE", "LICENSE",
        "DESCRIPTION", "KEYWORDS", "IUSE", "REQUIRED_USE", "PDEPEND", "BDEPEND",
        "EAPI", "PROPERTIES", "DEFINED_PHASES"].foldl
          (fun acc key => acc ++ key ++ "=" ++ "v" ++ "\n") "") ++
        "_md5_=" ++ "m" ++ "\n" := by decide

/-- C3 amended.
For every ebuild whose metadata is generated, the line block written to
`metadata/md5-cache/<atom>` lists the AUXDB fields in ascending lexicographic
order of the field names -- BDEPEND, DEFINED_PHASES, DEPEND, DESCRIPTION,
EAPI, HOMEPAGE, IUSE, KEYWORDS, LICENSE, PDEPEND, PROPERTIES, RDEPEND,
REQUIRED_USE, RESTRICT, SLOT, SRC_URI (`AUXDB_LINES` is the `sorted` key
list) -- omitting fields whose value is empty, followed by a tab-separated
`_eclasses_` line exactly when the eclass string is nonempty, and a `_md5_`
line carrying the ebuild's md5. -/
theorem metadata_out_sorted_order (infos : String → String) (ec md5 : String) :
    AUXDB_LINES =
      ["BDEPEND", "DEFINED_PHASES", "DEPEND", "DESCRIPTION", "EAPI", "HOMEPAGE",
       "IUSE", "KEYWORDS", "LICENSE", "PDEPEND", "PROPERTIES", "RDEPEND",
       "REQUIRED_USE", "RESTRICT", "SLOT", "SRC_URI"] ∧
    metadata_out infos ec md5 =
      (if ec.length ≠ 0 then
        (["BDEPEND", "DEFINED_PHASES", "DEPEND", "DESCRIPTION", "EAPI", "HOMEPAGE",
          "IUSE", "KEYWORDS", "LICENSE", "PDEPEND", "PROPERTIES", "RDEPEND",
          "REQUIRED_USE", "RESTRICT", "SLOT", "SRC_URI"].foldl
            (fun acc key => if infos key ≠ "" then acc ++ key ++ "=" ++ infos key ++ "\n" else acc) "")
          ++ "_eclasses_=" ++ ec.drop 1 ++ "\n"
      else
        (["BDEPEND", "DEFINED_PHASES", "DEPEND", "DESCRIPTION", "EAPI", "HOMEPAGE",
          "IUSE", "KEYWORDS", "LICENSE", "PDEPEND", "PROPERTIES", "RDEPEND",
          "REQUIRED_USE", "RESTRICT", "SLOT", "SRC_URI"].foldl
            (fun acc key => if infos key ≠ "" then acc ++ key ++ "=" ++ infos key ++ "\n" else acc) ""))
        ++ "_md5_=" ++ md5 ++ "\n" := by
  refine ⟨AUXDB_LINES_eq, ?_⟩
  unfold metadata_out
  rw [AUXDB_LINES_eq]

/-! ## metatools/fastpull/blos.py: BaseLayerObjectStore.get_object -/

inductive BackFillStrategy where
  | NONE | DESIRED | ALL
  deriving DecidableEq, Repr

/-- Outcome of a `get_object` call: which exception was raised, or success with
the set of checked hash names. `noRecordCrash` stands for the Python `TypeError`
raised at `db_record["hashes"]` when no MongoDB record exists (the guard at line
236 re-tests `not exists_on_disk` and is unreachable there). -/
inductive GetOutcome where
  | invalidRequest
  | keyError
  | notFound
  | noRecordCrash
  | incompleteRecord
  | corruption (invalid : List String)
  | hashMismatch (invalid : List String)
  | success (checked : List String)
  deriving DecidableEq, Repr

/-- Association-list lookup for a Python hash dictionary. -/
def lookupHash : List (String × String) → String → Option String
  | [], _ => none
  | (k, v) :: rest, key => if k = key then some v else lookupHash rest key

/-- `self.req_client_hashes` after `__init__` (default `{"sha512"}`). -/
def req_client_hashes : List String := ["sha512"]

/-- `self.req_blos_hashes` after `__init__`:
`req_client_hashes | {"sha512"} | {"size"}`. -/
def req_blos_hashes : List String := ["sha512", "size"]

/-- `self.disk_verify` after `__init__`: `{"sha512"} | {"size"}`. -/
def disk_verify : List String := ["sha512", "size"]

/-- The body of the `for hash_name in common_hashes` loop of `get_object`,
accumulating `invalid_hashes` (keys only) and the `corrupt` flag. `supplied`
is bound to `db_record["hashes"][hash_name]` and `recorded` to
`hashes[hash_name]`, exactly as in the source. -/
def checkHash (clientHashes dbHashes : List (String × String))
    (diskHashes : String → String) (acc : List String × Bool) (hash_name : String) :
    List String × Bool :=
  let diskhash := if hash_name ∈ disk_verify then some (diskHashes hash_name) else none
  let supplied := (lookupHash dbHashes hash_name).getD ""
  let recorded := (lookupHash clientHashes hash_name).getD ""
  if diskhash.isSome ∧ supplied = recorded ∧ recorded = diskhash.getD "" then acc
  else if supplied = recorded then acc
  else
    (acc.1 ++ [hash_name],
      acc.2 ∨ (diskhash.isSome ∧ recorded ≠ diskhash.getD ""))

/-- Embedding of `BaseLayerObjectStore.get_object` (metatools/fastpull/blos.py).
`clientHashes` is the caller's `hashes` dict, `diskPresent` whether the splayed
path exists, `diskHashes` the hashes `calc_hashes` recomputes from the on-disk
bytes, `dbRecord` the `hashes` sub-document of the MongoDB record (if any).
Returns the outcome paired with whether the on-disk object file was unlinked. -/
def get_object (backfill : BackFillStrategy) (clientHashes : List (String × String))
    (diskPresent : Bool) (diskHashes : String → String)
    (dbRecord : Option (List (String × String))) : GetOutcome × Bool :=
  let client_hash_names := clientHashes.map Prod.fst
  -- the source computes `client_hash_names - self.req_client_hashes`
  let missing := client_hash_names.filter (fun n => n ∉ req_client_hashes)
  if missing ≠ [] then (.invalidRequest, false)
  else
    match lookupHash clientHashes "sha512" with
    | none => (.keyError, false)
    | some _ =>
      if ¬ diskPresent then (.notFound, false)
      else
        match dbRecord with
        | none => (.noRecordCrash, false)
        | some dbHashes =>
          let db_hash_names := dbHashes.map Prod.fst
          let missing_expected := req_blos_hashes.filter (fun n => n ∉ db_hash_names)
          if backfill = .NONE ∧ missing_expected ≠ [] then (.incompleteRecord, false)
          else
            let common := client_hash_names.filter (fun n => n ∈ db_hash_names)
            let checked := common.foldl (checkHash clientHashes dbHashes diskHashes) ([], false)
            if checked.2 then (.corruption checked.1, true)
            else if checked.1 ≠ [] then (.hashMismatch checked.1, false)
            else (.success common, false)

/-- C4.
Failing input for the claim: the caller requests `{sha512: "S"}`, the database
record stores `{sha512: "S", size: "100"}`, and the on-disk bytes now hash to
sha512 `"T" ≠ "S"` (size still `"100"`). The record and the recomputed disk
hash disagree, so the claim (and the `BLOSCorruptionError` docstring, and the
spec's corrupt-on-disk scenario) require a `Corruption` error and the unlink of
the file; the code instead returns success and leaves the file in place,
because its per-hash check passes whenever record and caller agree
(`elif supplied == recorded`) and its `corrupt` flag compares the caller's hash
(`recorded`) -- not the record's -- against the disk hash. -/
theorem get_object_record_disk_mismatch_returns_success :
    get_object .DESIRED [("sha512", "S")] true
        (fun n => if n = "sha512" then "T" else "100")
        (some [("sha512", "S"), ("size", "100")]) =
      (.success ["sha512"], false) ∧
    get_object .DESIRED [("sha512", "S")] true
        (fun n => if n = "sha512" then "R" else "100")
        (some [("sha512", "R"), ("size", "100")]) =
      (.corruption ["sha512"], true) := by
  constructor
  · rfl
  · rfl

/-! ## funtoo/pkgtools/http.py: http_fetch; funtoo/pkgtools/fetch.py: fetch_harness -/

/-- What one live HTTP attempt yields: a response with a status code and body,
or an `httpx.RequestError` (connection failure). -/
inductive HttpAttempt where
  | response (status : Nat) (body : String)
  | requestError
  deriving DecidableEq, Repr

/-- A fetch method's result: the body, or a raised `FetchError` with its
`retry` flag. -/
inductive FetchResult where
  | ok (body : String)
  | fetchError (retry : Bool)
  deriving DecidableEq, Repr

/-- Embedding of `http_fetch` (funtoo/pkgtools/http.py): a non-200 status
raises `FetchError` with `retry=False` for 400/404/410 and `retry=True`
otherwise; an `httpx.RequestError` raises `FetchError` with `retry=False`. -/
def http_fetch : HttpAttempt → FetchResult
  | .response status body =>
    if status ≠ 200 then
      if status = 400 ∨ status = 404 ∨ status = 410 then .fetchError false
      else .fetchError true
    else .ok body
  | .requestError => .fetchError false

/-- A fetch-cache entry, with `age = now - fetched_on`. -/
structure CacheEntry where
  body : String
  age : Nat
  deriving DecidableEq, Repr

/-- Modelled from the spec: `fetch_cache_read` of the `FileStoreFetchCache`
(metatools/fetch_cache.py, not among the source files). Per spec section 4.B:
miss if there is no record; miss if `refresh_interval` is given and
`now - fetched_on > refresh_interval`; miss if `max_age` is given and the
record exceeds it; otherwise return the body. -/
def fetch_cache_read (entry : Option CacheEntry)
    (refresh_interval max_age : Option Nat) : Option String :=
  match entry with
  | none => none
  | some e =>
    if (match refresh_interval with | some ri => decide (ri < e.age) | none => false) then none
    else if (match max_age with | some ma => decide (ma < e.age) | none => false) then none
    else some e.body

/-- What one `fetch_harness` call did: its result (return value or raised
`FetchError`), how many live fetches it performed, which bodies it wrote to the
fetch cache, and whether it recorded a failure entry. -/
structure HarnessResult where
  result : FetchResult
  liveFetches : Nat
  cacheWrites : List String
  failureRecorded : Bool
  deriving DecidableEq, Repr

/-- The `while attempts < pkgtools.model.fetch_attempts` loop of
`fetch_harness` (funtoo/pkgtools/fetch.py). `attempts` is the Python counter
before the `attempts += 1` at the head of the iteration; `fuel` is
`fetch_attempts - attempts`, so `fuel = 0` is the loop exit (lines 88-97:
a cache read honoring `max_age`, then `record_fetch_failure` and `FetchError`
on a miss). Within one iteration: a refresh-interval cache hit returns the
cached body; otherwise the live fetch runs, a success writes the cache and
returns, a `FetchError` with `retry` set continues while
`attempts + 1 < fetch_attempts`, and otherwise a cache read with no
`max_age` is tried before re-raising the original error. -/
def fetch_harness_loop (attemptOutcome : Nat → HttpAttempt) (entry : Option CacheEntry)
    (refresh_interval max_age : Option Nat) (fetch_attempts : Nat) :
    Nat → Nat → HarnessResult
  | _, 0 =>
    match fetch_cache_read entry none max_age with
    | some body => ⟨.ok body, 0, [], false⟩
    | none => ⟨.fetchError false, 0, [], true⟩
  | attempts, fuel + 1 =>
    let attempts' := attempts + 1
    match (if refresh_interval.isSome then fetch_cache_read entry refresh_interval none
           else none) with
    | some body => ⟨.ok body, 0, [], false⟩
    | none =>
      match http_fetch (attemptOutcome attempts) with
      | .ok body => ⟨.ok body, 1, [body], false⟩
      | .fetchError retry =>
        if retry ∧ attempts' + 1 < fetch_attempts then
          let r := fetch_harness_loop attemptOutcome entry refresh_interval max_age
            fetch_attempts attempts' fuel
          ⟨r.result, r.liveFetches + 1, r.cacheWrites, r.failureRecorded⟩
        else
          match fetch_cache_read entry none none with
          | some body => ⟨.ok body, 1, [], false⟩
          | none => ⟨.fetchError retry, 1, [], false⟩

/-- Embedding of `fetch_harness` (funtoo/pkgtools/fetch.py), with
`attemptOutcome i` the outcome of the `i`-th live fetch (0-based) and
`fetch_attempts` the `pkgtools.model.fetch_attempts` setting (default 3).
`refresh_interval` is the effective interval after the model-default
substitution at lines 46-51. -/
def fetch_harness (attemptOutcome : Nat → HttpAttempt) (entry : Option CacheEntry)
    (refresh_interval max_age : Option Nat) (fetch_attempts : Nat) : HarnessResult :=
  fetch_harness_loop attemptOutcome entry refresh_interval max_age fetch_attempts
    0 fetch_attempts

/-- With every live attempt failing as retryable and no refresh-interval cache
hit, the loop drains its retry budget and ends in the no-`max_age` cache
fallback: from `fuel ≥ 1` remaining iterations it performs `max (fuel - 1) 1`
live fetches, writes nothing, records no failure, and returns the cached body
regardless of age -- or re-raises the retryable `FetchError` when the cache is
empty. -/
theorem fetch_harness_loop_all_retryable_fail (attemptOutcome : Nat → HttpAttempt)
    (entry : Option CacheEntry) (ri ma : Option Nat) (N : Nat)
    (hri : (if ri.isSome then fetch_cache_read entry ri none else none) = none)
    (hfail : ∀ i, http_fetch (attemptOutcome i) = .fetchError true) :
    ∀ fuel attempts, attempts + fuel = N → 1 ≤ fuel →
      fetch_harness_loop attemptOutcome entry ri ma N attempts fuel =
        ⟨(match fetch_cache_read entry none none with
          | some body => FetchResult.ok body
          | none => FetchResult.fetchError true),
          max (fuel - 1) 1, [], false⟩ := by
  intro fuel
  induction fuel with
  | zero => intro attempts _ h1; omega
  | succ f ih =>
    intro attempts hN _
    rw [fetch_harness_loop]
    rw [hri]
    rw [hfail attempts]
    by_cases hf : 2 ≤ f
    · have hcond : True ∧ attempts + 1 + 1 < N := by
        constructor
        · trivial
        · omega
      simp only [if_pos hcond]
      rw [ih (attempts + 1) (by omega) (by omega)]
      have hmax1 : max (f - 1) 1 = f - 1 := by omega
      have hmax2 : max (f + 1 - 1) 1 = f := by omega
      simp only [hmax1, hmax2]
      have : f - 1 + 1 = f := by omega
      rw [this]
    · have hcond : ¬ (True ∧ attempts + 1 + 1 < N) := by
        rintro ⟨-, hlt⟩
        omega
      simp only [if_neg hcond]
      have hmax : max (f + 1 - 1) 1 = 1 := by omega
      rw [hmax]
      match hread : fetch_cache_read entry none none with
      | some body => rfl
      | none => rfl

/-- C5 counterexample.
With the default `fetch_attempts = 3`, no refresh interval, `max_age = 10`, a
cache entry of age 100 (far beyond `max_age`), and every live attempt failing
with a retryable HTTP 500: all live attempts fail, the `max_age`-honoring
cache read misses, so the claim requires a failure entry to be recorded and
`FetchError` raised -- but the harness returns the stale cached body, records
no failure, and performs its fallback read without `max_age`. -/
theorem fetch_harness_max_age_counterexample :
    fetch_harness (fun _ => .response 500 "") (some ⟨"old", 100⟩) none (some 10) 3 =
      ⟨.ok "old", 2, [], false⟩ ∧
    fetch_cache_read (some ⟨"old", 100⟩) none (some 10) = none := by
  constructor
  · rfl
  · rfl

/-- C5 amended.
For every call to the fetch harness (with at least one attempt allowed, as the
default `fetch_attempts = 3` is): if a refresh interval is in effect and a
cache entry fresher than that interval exists, the cached body is returned and
no live fetch is performed; otherwise a live fetch is attempted and, on
success, the body is written to the cache and returned; if all live attempts
fail as retryable (`max (N-1) 1` of them are performed), the harness falls
back to a cache read that ignores `max_age` and returns any cached body
regardless of age, and on a cache miss it re-raises the `FetchError` without
recording a failure entry (the failure-recording code after the loop is
unreachable for `fetch_attempts ≥ 1`). -/
theorem fetch_harness_policy (ao : Nat → HttpAttempt) (entry : Option CacheEntry)
    (ri ma : Option Nat) (N : Nat) (hN : 1 ≤ N) :
    (∀ r e, ri = some r → entry = some e → e.age ≤ r →
      fetch_harness ao entry ri ma N = ⟨.ok e.body, 0, [], false⟩) ∧
    (∀ b, (if ri.isSome then fetch_cache_read entry ri none else none) = none →
      ao 0 = .response 200 b →
      fetch_harness ao entry ri ma N = ⟨.ok b, 1, [b], false⟩) ∧
    ((if ri.isSome then fetch_cache_read entry ri none else none) = none →
      (∀ i, http_fetch (ao i) = .fetchError true) →
      fetch_harness ao entry ri ma N =
        ⟨(match fetch_cache_read entry none none with
          | some body => FetchResult.ok body
          | none => FetchResult.fetchError true),
          max (N - 1) 1, [], false⟩) := by
  obtain ⟨M, rfl⟩ : ∃ M, N = M + 1 := ⟨N - 1, by omega⟩
  refine ⟨?_, ?_, ?_⟩
  · rintro r e rfl rfl hage
    have hnl : ¬ r < e.age := by omega
    have hhit : fetch_cache_read (some e) (some r) none = some e.body := by
      simp [fetch_cache_read, hnl]
    unfold fetch_harness
    rw [fetch_harness_loop]
    simp only [Option.isSome_some, if_true, hhit]
  · intro b hri hok
    unfold fetch_harness
    rw [fetch_harness_loop]
    rw [hri, hok]
    rfl
  · intro hri hfail
    unfold fetch_harness
    exact fetch_harness_loop_all_retryable_fail ao entry ri ma (M + 1) hri hfail
      (M + 1) 0 (by omega) (by omega)

/-- C5 witness: the amended policy at concrete inputs -- a fresh-enough cache
entry under a 10-second refresh interval is served from cache with zero live
fetches. -/
theorem fetch_harness_policy_witness :
    fetch_harness (fun _ => .response 200 "live") (some ⟨"cached", 5⟩)
        (some 10) none 3 = ⟨.ok "cached", 0, [], false⟩ :=
  (fetch_harness_policy (fun _ => .response 200 "live") (some ⟨"cached", 5⟩)
    (some 10) none 3 (by omega)).1 10 ⟨"cached", 5⟩ rfl rfl (by decide)

/-- C6 counterexample.
With the default `fetch_attempts = 3` and every live attempt failing with a
retryable HTTP 500 (and an empty cache), only 2 live attempts are performed,
not the claimed 3; and a connection-level failure (`httpx.RequestError`) is a
fetch failure that is classified non-retryable, contradicting "every other
fetch failure is retryable". -/
theorem get_page_retry_counterexample :
    (fetch_harness (fun _ => .response 500 "") none none none 3).liveFetches = 2 ∧
    http_fetch .requestError = .fetchError false := by
  constructor
  · rfl
  · rfl

/-- C6 amended.
`get_page` classifies a fetch failure with HTTP status 400, 404 or 410 as
non-retryable and every other non-200 HTTP status failure as retryable, while
a connection-level transport error is non-retryable; a retryable failure is
retried only while `attempts + 1 < max_attempts`, so with the default
`max_attempts = 3` exactly 2 live attempts are performed (one retry) before
the error is surfaced, and a non-retryable failure gets a single live
attempt. -/
theorem get_page_retry_policy :
    (∀ b, http_fetch (.response 200 b) = .ok b) ∧
    (∀ code b, code ≠ 200 → (code = 400 ∨ code = 404 ∨ code = 410) →
      http_fetch (.response code b) = .fetchError false) ∧
    (∀ code b, code ≠ 200 → ¬ (code = 400 ∨ code = 404 ∨ code = 410) →
      http_fetch (.response code b) = .fetchError true) ∧
    (http_fetch .requestError = .fetchError false) ∧
    (∀ ao entry ma, (∀ i, http_fetch (ao i) = .fetchError true) →
      (fetch_harness ao entry none ma 3).liveFetches = 2) ∧
    (∀ ao entry ma, http_fetch (ao 0) = .fetchError false →
      (fetch_harness ao entry none ma 3).liveFetches = 1) := by
  refine ⟨?_, ?_, ?_, ?_, ?_, ?_⟩
  · intro b; rfl
  · intro code b hne h3
    simp only [http_fetch]
    rw [if_pos hne, if_pos h3]
  · intro code b hne h3
    simp only [http_fetch]
    rw [if_pos hne, if_neg h3]
  · rfl
  · intro ao entry ma hfail
    unfold fetch_harness
    rw [fetch_harness_loop_all_retryable_fail ao entry none ma 3 (by simp) hfail 3 0
      (by omega) (by omega)]
    rfl
  · intro ao entry ma hfirst
    unfold fetch_harness
    rw [fetch_harness_loop]
    rw [show (if (none : Option Nat).isSome then fetch_cache_read entry none none
        else none) = none from rfl]
    rw [hfirst]
    match hread : fetch_cache_read entry none none with
    | some body => rfl
    | none => rfl

/-- C6 witness: the amended policy at concrete inputs -- HTTP 404 is
non-retryable, HTTP 500 is retryable, and with the default budget of 3 a run
of retryable 500s performs exactly 2 live attempts. -/
theorem get_page_retry_policy_witness :
    http_fetch (.response 404 "x") = .fetchError false ∧
    http_fetch (.response 500 "x") = .fetchError true ∧
    (fetch_harness (fun _ => .response 500 "x") none none none 3).liveFetches = 2 :=
  ⟨get_page_retry_policy.2.1 404 "x" (by omega) (by omega),
   get_page_retry_policy.2.2.1 500 "x" (by omega) (by omega),
   get_page_retry_policy.2.2.2.2.1 (fun _ => .response 500 "x") none none
     (fun _ => rfl)⟩

/-! ## metatools/kit.py: KitExecutionPool.run and
MetaRepoJobController.process_all_kits_in_release -/

/-- A kit job as the pool sees it: the kit's name and whether its method
(`generate()`) completes without raising. -/
structure KitJob where
  name : String
  ok : Bool
  deriving DecidableEq, Repr

/-- Observable events while pools run: a job starting and a job completing. -/
inductive KitEvent where
  | start (name : String)
  | done (name : String)
  deriving DecidableEq, Repr

/-- Embedding of `KitExecutionPool.run` (metatools/kit.py): jobs run strictly
one after another (`for kit_job in self.jobs: ... await method()`); on the
first exception the pool logs it and returns False immediately, leaving the
remaining jobs of the pool unexecuted; with no exception it returns True.
Returns the event trace alongside the success flag. -/
def poolRun : List KitJob → List KitEvent × Bool
  | [] => ([], true)
  | j :: rest =>
    if j.ok then
      let r := poolRun rest
      (KitEvent.start j.name :: KitEvent.done j.name :: r.1, r.2)
    else
      ([KitEvent.start j.name], false)

/-- Embedding of the pool-sequencing tail of
`MetaRepoJobController.process_all_kits_in_release` (metatools/kit.py):
run the master pool to completion; if it failed, return False without touching
the dependent pool; otherwise run the dependent pool and return its flag. -/
def process_all_kits_in_release (masterJobs otherJobs : List KitJob) :
    List KitEvent × Bool :=
  let mp := poolRun masterJobs
  if mp.2 = false then (mp.1, false)
  else
    let op := poolRun otherJobs
    (mp.1 ++ op.1, op.2)

/-- The name carried by an event. -/
def KitEvent.evName : KitEvent → String
  | .start n => n
  | .done n => n

theorem poolRun_event_names (js : List KitJob) :
    ∀ e ∈ (poolRun js).1, e.evName ∈ js.map KitJob.name := by
  induction js with
  | nil => simp [poolRun]
  | cons j rest ih =>
    intro e he
    simp only [poolRun] at he
    by_cases hok : j.ok
    · rw [if_pos hok] at he
      simp only [List.mem_cons] at he
      rcases he with rfl | rfl | he
      · simp [KitEvent.evName]
      · simp [KitEvent.evName]
      · simp only [List.map_cons, List.mem_cons]
        exact Or.inr (ih e he)
    · rw [if_neg hok] at he
      simp only [List.mem_singleton] at he
      subst he
      simp [KitEvent.evName]

theorem poolRun_success_done (js : List KitJob) (hs : (poolRun js).2 = true) :
    ∀ j ∈ js, KitEvent.done j.name ∈ (poolRun js).1 := by
  induction js with
  | nil => simp
  | cons j rest ih =>
    by_cases hok : j.ok
    · have hs' : (poolRun rest).2 = true := by
        simp only [poolRun, if_pos hok] at hs
        exact hs
      intro k hk
      simp only [poolRun, if_pos hok]
      rcases List.mem_cons.mp hk with rfl | hk'
      · simp
      · simp only [List.mem_cons]
        exact Or.inr (Or.inr (ih hs' k hk'))
    · simp only [poolRun, if_neg hok] at hs
      exact absurd hs (by simp)

/-- C8.
In every release regeneration run, all master-kit jobs have run to completion
before the first dependent (non-master) kit job starts: whenever the trace
contains the start of a job named among the dependent jobs (master and
dependent job names being disjoint, as they are by construction), every
master job's completion event occurs strictly earlier in the trace. -/
theorem masters_complete_before_dependents (masters others : List KitJob)
    (hdisj : ∀ j ∈ masters, ∀ k ∈ others, j.name ≠ k.name)
    (n : Nat) (dname : String)
    (hstart : (process_all_kits_in_release masters others).1.get? n =
      some (KitEvent.start dname))
    (hdep : dname ∈ others.map KitJob.name) :
    ∀ m ∈ masters, ∃ i, i < n ∧
      (process_all_kits_in_release masters others).1.get? i =
        some (KitEvent.done m.name) := by
  intro m hm
  by_cases hms : (poolRun masters).2 = false
  · -- master pool failed: the trace holds master-named events only, so no
    -- dependent start can be found in it at all.
    exfalso
    have htr : (process_all_kits_in_release masters others).1 = (poolRun masters).1 := by
      unfold process_all_kits_in_release
      rw [if_pos hms]
    rw [htr] at hstart
    have hmem : KitEvent.start dname ∈ (poolRun masters).1 := by
      exact List.get?_mem hstart
    have hname := poolRun_event_names masters _ hmem
    simp only [KitEvent.evName] at hname
    rw [List.mem_map] at hname hdep
    obtain ⟨jm, hjm, hjme⟩ := hname
    obtain ⟨kd, hkd, hkde⟩ := hdep
    exact hdisj jm hjm kd hkd (by rw [hjme, hkde])
  · rw [Bool.not_eq_false] at hms
    have htr : (process_all_kits_in_release masters others).1 =
        (poolRun masters).1 ++ (poolRun others).1 := by
      unfold process_all_kits_in_release
      rw [if_neg (by rw [hms]; simp)]
    have hdone : KitEvent.done m.name ∈ (poolRun masters).1 :=
      poolRun_success_done masters hms m hm
    obtain ⟨i, hi⟩ := List.mem_iff_get?.mp hdone
    have hilt : i < (poolRun masters).1.length :=
      List.get?_eq_some.mp hi |>.1
    -- n lies in the dependent segment: a master-segment event would carry a
    -- master name, contradicting disjointness.
    have hn : (poolRun masters).1.length ≤ n := by
      by_contra hlt
      push_neg at hlt
      rw [htr, List.get?_append hlt] at hstart
      have hmem : KitEvent.start dname ∈ (poolRun masters).1 := List.get?_mem hstart
      have hname := poolRun_event_names masters _ hmem
      simp only [KitEvent.evName] at hname
      rw [List.mem_map] at hname hdep
      obtain ⟨jm, hjm, hjme⟩ := hname
      obtain ⟨kd, hkd, hkde⟩ := hdep
      exact hdisj jm hjm kd hkd (by rw [hjme, hkde])
    refine ⟨i, by omega, ?_⟩
    rw [htr, List.get?_append (by omega)]
    exact hi

/-- C8 witness: a release with master `core-kit` and dependent `python-kit`;
the dependent start sits at index 2 of the trace, and the master's completion
is found strictly before it. -/
theorem masters_complete_before_dependents_witness :
    ∃ i, i < 2 ∧
      (process_all_kits_in_release [⟨"core-kit", true⟩] [⟨"python-kit", true⟩]).1.get? i =
        some (KitEvent.done "core-kit") :=
  masters_complete_before_dependents [⟨"core-kit", true⟩] [⟨"python-kit", true⟩]
    (by decide) 2 "python-kit" rfl (by decide) ⟨"core-kit", true⟩ (by decide)

/-- C9 counterexample.
Master `m` succeeds; dependent `d1` fails; dependent `d2` never starts, even
though the claim says every other dependent kit job is still executed. -/
theorem dependent_failure_skips_rest_counterexample :
    process_all_kits_in_release [⟨"m", true⟩] [⟨"d1", false⟩, ⟨"d2", true⟩] =
      ([KitEvent.start "m", KitEvent.done "m", KitEvent.start "d1"], false) ∧
    KitEvent.start "d2" ∉
      (process_all_kits_in_release [⟨"m", true⟩] [⟨"d1", false⟩, ⟨"d2", true⟩]).1 := by
  constructor
  · rfl
  · decide

/-- C9 amended.
If a master-kit job fails, the whole release run is aborted (no dependent kit
job runs and the run reports failure); if a dependent kit job fails, the
dependent pool aborts at that job: the dependent jobs after it are not
executed and the run reports failure (rather than only that kit being skipped
and every other dependent job still executing). -/
theorem kit_pool_failure_policy (masters others : List KitJob) :
    ((poolRun masters).2 = false →
      process_all_kits_in_release masters others = ((poolRun masters).1, false)) ∧
    (∀ pre j post, others = pre ++ j :: post →
      (∀ k ∈ pre, k.ok = true) → j.ok = false → (poolRun masters).2 = true →
      process_all_kits_in_release masters others =
        ((poolRun masters).1 ++
          ((pre.map (fun k => [KitEvent.start k.name, KitEvent.done k.name])).join ++
            [KitEvent.start j.name]), false)) := by
  have hfail : ∀ (pre : List KitJob) (j : KitJob) (post : List KitJob),
      (∀ k ∈ pre, k.ok = true) → j.ok = false →
      poolRun (pre ++ j :: post) =
        ((pre.map (fun k => [KitEvent.start k.name, KitEvent.done k.name])).join ++
          [KitEvent.start j.name], false) := by
    intro pre
    induction pre with
    | nil =>
      intro j post _ hj
      simp only [List.nil_append, List.map_nil, List.join, poolRun]
      rw [if_neg (by rw [hj]; simp)]
      simp
    | cons k pre' ih =>
      intro j post hpre hj
      have hk : k.ok = true := hpre k (by simp)
      have ihr := ih j post (fun x hx => hpre x (by simp [hx])) hj
      rw [List.cons_append]
      simp only [poolRun, if_pos hk]
      rw [ihr]
      simp
  constructor
  · intro hms
    unfold process_all_kits_in_release
    rw [if_pos hms]
  · intro pre j post hothers hpre hj hms
    unfold process_all_kits_in_release
    rw [if_neg (by rw [hms]; simp)]
    rw [hothers, hfail pre j post hpre hj]

/-- C9 amended witness: master `m` succeeds, dependent `d1` fails, so the run
ends right after `d1` starts and reports failure. -/
theorem kit_pool_failure_policy_witness :
    process_all_kits_in_release [⟨"m", true⟩] [⟨"d1", false⟩, ⟨"d2", true⟩] =
      ((poolRun [⟨"m", true⟩]).1 ++
        ((([] : List KitJob).map
            (fun k => [KitEvent.start k.name, KitEvent.done k.name])).join ++
          [KitEvent.start "d1"]), false) :=
  (kit_pool_failure_policy [⟨"m", true⟩] [⟨"d1", false⟩, ⟨"d2", true⟩]).2
    [] ⟨"d1", false⟩ [⟨"d2", true⟩] rfl (by decide) rfl rfl

/-! ## funtoo/pkgtools/autogen.py: parse_yaml_rule, recursive_merge,
init_pkginfo_for_package and the version expansion of generator_thread_task -/

/-- A Python dictionary key as it occurs in autogen YAML: a string, a float
(carried by its Python `repr`, which is also what `repr(key)` produces), or
`None` (YAML `null`). -/
inductive VKey where
  | str (s : String)
  | float (r : String)
  | none_
  deriving DecidableEq, Repr

/-- A Python value as it occurs in autogen YAML: strings, floats (carried by
their `repr`), `None`, lists, and dictionaries (whose keys may be strings,
floats, or `None`). -/
inductive PyVal where
  | str (s : String)
  | float (r : String)
  | none_
  | list (elems : List PyVal)
  | map (entries : List (VKey × PyVal))

/-- A Python dictionary, keys in insertion order. -/
abbrev PyDict := List (VKey × PyVal)

/-- `d[k]` lookup (first occurrence wins; our operations keep keys unique). -/
def dictGet : PyDict → VKey → Option PyVal
  | [], _ => none
  | (k', v') :: rest, k => if k' = k then some v' else dictGet rest k

/-- `d[k] = v`: replace in place, else append (Python insertion order). -/
def dictSet : PyDict → VKey → PyVal → PyDict
  | [], k, v => [(k, v)]
  | (k', v') :: rest, k, v =>
    if k' = k then (k', v) :: rest else (k', v') :: dictSet rest k v

/-- `del d[k]` (no-op when the key is absent; Python raises there, but every
`del` in the embedded code is guarded by presence). -/
def dictDel : PyDict → VKey → PyDict
  | [], _ => []
  | (k', v') :: rest, k => if k' = k then rest else (k', v') :: dictDel rest k

/-- `d.update(e)`: set every entry of `e` over `d`, in order. -/
def dictUpdate (d e : PyDict) : PyDict :=
  e.foldl (fun acc kv => dictSet acc kv.1 kv.2) d

mutual
/-- One merge step of `recursive_merge` (funtoo/pkgtools/autogen.py) on a
colliding pair of values: two dicts merge recursively key-by-key, two lists
concatenate, anything else resolves to the second value (`overwrite=True`). -/
def mergeVal : PyVal → PyVal → PyVal
  | .map e1, .map e2 =>
    .map (mergeEntries e1 e2 ++ e2.filter (fun kv => (dictGet e1 kv.1).isNone))
  | .list l1, .list l2 => .list (l1 ++ l2)
  | _, v2 => v2

/-- The `d1`-side of the merged out-dict: every key of `d1` keeps its value,
merged with `d2`'s value when the key collides. -/
def mergeEntries : PyDict → PyDict → PyDict
  | [], _ => []
  | (k, v) :: rest, e2 =>
    (k, match dictGet e2 k with
      | some v2 => mergeVal v v2
      | none => v) :: mergeEntries rest e2
end

/-- Embedding of `recursive_merge` (funtoo/pkgtools/autogen.py): the out-dict
holds, for every key of `d1`, its value merged with `d2`'s colliding value
(dicts merge recursively, lists concatenate, otherwise `d2` wins since
`overwrite=True`), plus every key only in `d2`. The Python iterates the set
union of the key sets; key order does not affect any lookup. -/
def recursive_merge (d1 d2 : PyDict) : PyDict :=
  mergeEntries d1 d2 ++ d2.filter (fun kv => (dictGet d1 kv.1).isNone)

/-- Embedding of `init_pkginfo_for_package` (funtoo/pkgtools/autogen.py):
start from the generator's `GLOBAL_DEFAULTS`, `recursive_merge` each non-None
defaults dict over it, `recursive_merge` the package's own `base_pkginfo` on
top, then set `template_path` (when given), `sub_path`, and `gen_path`.
`gen_path_str` stands for the already-formatted `${REPODIR}/...` string the
source computes from `pkgtools.model.locator.root` and `gen_path`. -/
def init_pkginfo_for_package (glob_defs : PyDict) (defaults : List (Option PyDict))
    (base_pkginfo : PyDict) (template_path : Option String)
    (sub_path gen_path_str : String) : PyDict :=
  let pkginfo := defaults.foldl
    (fun acc d => match d with
      | none => acc
      | some dd => recursive_merge acc dd) glob_defs
  let pkginfo := recursive_merge pkginfo base_pkginfo
  let pkginfo := match template_path with
    | some tp => dictSet pkginfo (.str "template_path") (.str tp)
    | none => pkginfo
  let pkginfo := dictSet pkginfo (.str "sub_path") (.str sub_path)
  dictSet pkginfo (.str "gen_path") (.str gen_path_str)

/-- A YAML `packages:` list item: either a plain string, or a single-key
mapping from the package name to its settings value. -/
inductive PackageSection where
  | str (name : String)
  | pkg (name : String) (val : PyVal)

/-- The YAML key as a value (what `v_pkginfo["version"] = version` stores). -/
def vkeyToVal : VKey → PyVal
  | .str s => .str s
  | .float r => .float r
  | .none_ => .none_

/-- Embedding of `parse_yaml_rule` (funtoo/pkgtools/autogen.py). Returns
`(defaults, pkginfo_list)`; `none` models the Python call raising (the
package value, or a `versions` value or version entry, not being a mapping).
For the `versions` form, each version key `k` yields one entry: `{"name":
package_name}` updated with the value's other fields (`v_defaults`), updated
with that version's own mapping, and finally `v_pkginfo["version"] = k` --
the key stored as-is, floats and `latest`/`null` included. -/
def parse_yaml_rule : PackageSection → Option (PyDict × List PyDict)
  | .str name => some ([], [[(VKey.str "name", PyVal.str name)]])
  | .pkg package_name val =>
    match val with
    | .map entries =>
      let pkg_section := dictSet entries (.str "name") (.str package_name)
      match dictGet pkg_section (.str "versions") with
      | some (.map versions_section) =>
        let v_defaults := dictDel pkg_section (.str "versions")
        (versions_section.mapM (fun (kv : VKey × PyVal) =>
          match kv.2 with
          | PyVal.map v_pkg_section =>
            let v_pkginfo : PyDict := [(VKey.str "name", PyVal.str package_name)]
            let v_pkginfo := dictUpdate v_pkginfo v_defaults
            let v_pkginfo := dictUpdate v_pkginfo v_pkg_section
            some (dictSet v_pkginfo (.str "version") (vkeyToVal kv.1))
          | _ => none)).map (fun l => ([], l))
      | some _ => none
      | none => some ([], [pkg_section])
    | _ => none

/-- Embedding of the version-expansion pass of `generator_thread_task`
(funtoo/pkgtools/autogen.py, the `new_pkginfo_list` loop): an entry whose
`version` is absent, a string, or a float goes through
`init_pkginfo_for_package` unchanged; an entry whose `version` is a dict is
expanded per version key, with float keys passed through `repr` and keys
`None`/`"latest"` deleting the `version` field while any other key sets it;
a list `version` raises `TypeError` (`none`); any other `version` value (such
as `None`) matches no branch, so the entry is silently dropped. -/
def expand_pkginfo (glob_defs : PyDict) (defaults : Option PyDict)
    (template_path : Option String) (sub_path gen_path_str : String)
    (base_pkginfo : PyDict) : Option (List PyDict) :=
  match dictGet base_pkginfo (.str "version") with
  | none =>
    some [init_pkginfo_for_package glob_defs [defaults] base_pkginfo
      template_path sub_path gen_path_str]
  | some (.str _) =>
    some [init_pkginfo_for_package glob_defs [defaults] base_pkginfo
      template_path sub_path gen_path_str]
  | some (.float _) =>
    some [init_pkginfo_for_package glob_defs [defaults] base_pkginfo
      template_path sub_path gen_path_str]
  | some (.map versions) =>
    let base' := dictDel base_pkginfo (.str "version")
    versions.mapM (fun (kv : VKey × PyVal) =>
      match kv.2 with
      | PyVal.map local_base =>
        let key := match kv.1 with
          | VKey.float r => VKey.str r
          | k => k
        let lvd := init_pkginfo_for_package glob_defs [defaults, some base']
          local_base template_path sub_path gen_path_str
        some (if key = VKey.none_ ∨ key = VKey.str "latest" then
            dictDel lvd (.str "version")
          else
            dictSet lvd (.str "version") (vkeyToVal key))
      | _ => none)
  | some (.list _) => none
  | some .none_ => some []

/-- The whole `new_pkginfo_list` computation: expand every entry and
concatenate (the loop appends per-entry results in order). -/
def expand_pkginfo_list (glob_defs : PyDict) (defaults : Option PyDict)
    (template_path : Option String) (sub_path gen_path_str : String)
    (pkginfo_list : List PyDict) : Option (List PyDict) :=
  (pkginfo_list.mapM
    (expand_pkginfo glob_defs defaults template_path sub_path gen_path_str)).map
    List.join

/-- The entry list of a mapping value (used to state results under the
hypothesis that a value is a mapping). -/
def entriesOf : PyVal → PyDict
  | .map e => e
  | _ => []

theorem mergeVal_str (v1 : PyVal) (s : String) :
    mergeVal v1 (PyVal.str s) = PyVal.str s := by
  cases v1 <;> rfl

theorem mergeVal_float (v1 : PyVal) (r : String) :
    mergeVal v1 (PyVal.float r) = PyVal.float r := by
  cases v1 <;> rfl

theorem dictGet_mergeEntries_some {d1 : PyDict} {k : VKey} {v1 : PyVal}
    (d2 : PyDict) (h : dictGet d1 k = some v1) :
    dictGet (mergeEntries d1 d2) k =
      some (match dictGet d2 k with
        | some v2 => mergeVal v1 v2
        | none => v1) := by
  induction d1 with
  | nil => simp [dictGet] at h
  | cons hd rest ih =>
    obtain ⟨k', v'⟩ := hd
    by_cases hk : k' = k
    · subst hk
      simp only [dictGet, if_true, eq_self_iff_true] at h
      injection h with h
      subst h
      simp [mergeEntries, dictGet]
    · simp only [dictGet, if_neg hk] at h
      simp only [mergeEntries, dictGet, if_neg hk]
      exact ih h

theorem dictGet_mergeEntries_none {d1 : PyDict} {k : VKey}
    (d2 : PyDict) (h : dictGet d1 k = none) :
    dictGet (mergeEntries d1 d2) k = none := by
  induction d1 with
  | nil => simp [mergeEntries, dictGet]
  | cons hd rest ih =>
    obtain ⟨k', v'⟩ := hd
    by_cases hk : k' = k
    · subst hk
      simp [dictGet] at h
    · simp only [dictGet, if_neg hk] at h
      simp only [mergeEntries, dictGet, if_neg hk]
      exact ih h

theorem dictGet_append_some {a : PyDict} {k : VKey} {v : PyVal}
    (b : PyDict) (h : dictGet a k = some v) :
    dictGet (a ++ b) k = some v := by
  induction a with
  | nil => simp [dictGet] at h
  | cons hd rest ih =>
    obtain ⟨k', v'⟩ := hd
    by_cases hk : k' = k
    · subst hk
      simp only [dictGet, if_pos rfl] at h ⊢
      exact h
    · simp only [dictGet, if_neg hk] at h
      simp only [List.cons_append, dictGet, if_neg hk]
      exact ih h

theorem dictGet_append_none {a : PyDict} {k : VKey}
    (b : PyDict) (h : dictGet a k = none) :
    dictGet (a ++ b) k = dictGet b k := by
  induction a with
  | nil => simp
  | cons hd rest ih =>
    obtain ⟨k', v'⟩ := hd
    by_cases hk : k' = k
    · simp [dictGet, hk] at h
    · simp only [dictGet, if_neg hk] at h
      simp only [List.cons_append, dictGet, if_neg hk]
      exact ih h

theorem dictGet_filter_keys_not_in {d1 : PyDict} {k : VKey}
    (d2 : PyDict) (h : dictGet d1 k = none) :
    dictGet (d2.filter (fun kv => (dictGet d1 kv.1).isNone)) k = dictGet d2 k := by
  induction d2 with
  | nil => simp
  | cons hd rest ih =>
    obtain ⟨k2, v2⟩ := hd
    by_cases hk : k2 = k
    · subst hk
      rw [List.filter_cons_of_pos (by simp [h])]
      simp [dictGet]
    · by_cases hkeep : (dictGet d1 k2).isNone
      · rw [List.filter_cons_of_pos (by simpa using hkeep)]
        simp only [dictGet, if_neg hk]
        exact ih
      · rw [List.filter_cons_of_neg (by simpa using hkeep)]
        rw [ih]
        simp [dictGet, hk]

/-- Lookup in a `recursive_merge` result: a colliding key carries the merged
value, a `d1`-only key its `d1` value, a `d2`-only key its `d2` value. -/
theorem dictGet_recursive_merge (d1 d2 : PyDict) (k : VKey) :
    dictGet (recursive_merge d1 d2) k =
      match dictGet d1 k, dictGet d2 k with
      | some v1, some v2 => some (mergeVal v1 v2)
      | some v1, none => some v1
      | none, o => o := by
  unfold recursive_merge
  match h1 : dictGet d1 k with
  | some v1 =>
    have hme := dictGet_mergeEntries_some d2 h1
    match h2 : dictGet d2 k with
    | some v2 =>
      rw [h2] at hme
      exact dictGet_append_some _ hme
    | none =>
      rw [h2] at hme
      exact dictGet_append_some _ hme
  | none =>
    rw [dictGet_append_none _ (dictGet_mergeEntries_none d2 h1)]
    exact dictGet_filter_keys_not_in d2 h1

theorem dictGet_dictSet_self (d : PyDict) (k : VKey) (v : PyVal) :
    dictGet (dictSet d k v) k = some v := by
  induction d with
  | nil => simp [dictSet, dictGet]
  | cons hd rest ih =>
    obtain ⟨k', v'⟩ := hd
    by_cases hk : k' = k
    · subst hk
      simp [dictSet, dictGet]
    · simp only [dictSet, if_neg hk, dictGet, if_neg hk]
      exact ih

theorem dictGet_dictSet_other (d : PyDict) {k k' : VKey} (v : PyVal)
    (h : k' ≠ k) : dictGet (dictSet d k v) k' = dictGet d k' := by
  induction d with
  | nil =>
    simp only [dictSet, dictGet]
    rw [if_neg (fun hh => h hh.symm)]
  | cons hd rest ih =>
    obtain ⟨k0, v0⟩ := hd
    by_cases hk : k0 = k
    · subst hk
      simp only [dictSet, if_pos rfl, dictGet]
      rw [if_neg (fun hh => h hh.symm), if_neg (fun hh => h hh.symm)]
    · simp only [dictSet, if_neg hk, dictGet]
      by_cases h0 : k0 = k'
      · rw [if_pos h0, if_pos h0]
      · rw [if_neg h0, if_neg h0]
        exact ih

/-- A scalar (string or float) `version` value of `base_pkginfo` survives
`init_pkginfo_for_package` unchanged: the defaults merges cannot override it
(`base_pkginfo` is the right-hand, winning side and the value is neither a
dict nor a list), and the trailing `template_path`/`sub_path`/`gen_path`
assignments touch other keys. -/
theorem dictGet_init_version (glob_defs : PyDict) (defaults : List (Option PyDict))
    (base : PyDict) (tp : Option String) (sp gp : String) {v : PyVal}
    (hv : dictGet base (VKey.str "version") = some v)
    (hscalar : (∃ s, v = PyVal.str s) ∨ (∃ r, v = PyVal.float r)) :
    dictGet (init_pkginfo_for_package glob_defs defaults base tp sp gp)
      (VKey.str "version") = some v := by
  unfold init_pkginfo_for_package
  rw [dictGet_dictSet_other _ _ (by decide)]
  rw [dictGet_dictSet_other _ _ (by decide)]
  have hmain : ∀ P : PyDict,
      dictGet (recursive_merge P base) (VKey.str "version") = some v := by
    intro P
    rw [dictGet_recursive_merge]
    match hp : dictGet P (VKey.str "version") with
    | some v1 =>
      rw [hv]
      rcases hscalar with ⟨s, rfl⟩ | ⟨r, rfl⟩
      · simp [mergeVal_str]
      · simp [mergeVal_float]
    | none =>
      rw [hv]
  match tp with
  | some t =>
    rw [dictGet_dictSet_other _ _ (by decide)]
    exact hmain _
  | none => exact hmain _

/-- `mapM` over `Option` computes the pointwise map when every element
succeeds. -/
theorem mapM_option_eq_map {α β : Type} (f : α → Option β) (g : α → β)
    (l : List α) (h : ∀ a ∈ l, f a = some (g a)) :
    l.mapM f = some (l.map g) := by
  induction l with
  | nil => rfl
  | cons a rest ih =>
    rw [List.mapM_cons, h a (by simp), ih (fun x hx => h x (by simp [hx]))]
    rfl

/-- C7 counterexample.
A package entry `foobar` with field `a: x` and a `versions` mapping with keys
`latest`, `null` and the float `3.14`: after `parse_yaml_rule` and the
orchestrator expansion, only two pkginfo entries remain -- the `latest` entry
still carries `version = "latest"` (not stripped), the `null` entry was
silently dropped (not kept without a `version` field), and the float entry's
`version` is still the float `3.14` (not its textual form). -/
theorem parse_yaml_versions_counterexample :
    ((parse_yaml_rule (PackageSection.pkg "foobar" (PyVal.map
        [(VKey.str "a", PyVal.str "x"),
         (VKey.str "versions", PyVal.map
           [(VKey.str "latest", PyVal.map []),
            (VKey.none_, PyVal.map []),
            (VKey.float "3.14", PyVal.map [])])]))).bind
      (fun pr => expand_pkginfo_list [] (some []) none "sp" "gp" pr.2)).map
      (fun l => l.map (fun d => dictGet d (VKey.str "version"))) =
    some [some (PyVal.str "latest"), some (PyVal.float "3.14")] := by
  rfl

/-- C7 amended.
When a YAML package entry's value mapping contains a `versions` mapping, each
version key produces one pkginfo entry with the value's other fields acting as
local defaults for that entry and the `version` field set literally to the
key; the orchestrator's later expansion passes string and float versions
through unchanged, so a `latest` key keeps `version = "latest"`, a float key
keeps the float value (no textual coercion), and a `null` key yields an entry
that the expansion silently drops. (The stripping of `latest`/`null` and the
float-to-text coercion apply only to the singular `version`-mapping form
handled in `generator_thread_task`.) -/
theorem parse_yaml_versions_behavior (glob_defs : PyDict) (defaults : Option PyDict)
    (tp : Option String) (sp gp : String) :
    (∀ package_name entries versions_section,
      dictGet (dictSet entries (VKey.str "name") (PyVal.str package_name))
          (VKey.str "versions") = some (PyVal.map versions_section) →
      (∀ kv ∈ versions_section, ∃ e, kv.2 = PyVal.map e) →
      parse_yaml_rule (PackageSection.pkg package_name (PyVal.map entries)) =
        some ([], versions_section.map (fun kv =>
          dictSet
            (dictUpdate
              (dictUpdate [(VKey.str "name", PyVal.str package_name)]
                (dictDel (dictSet entries (VKey.str "name") (PyVal.str package_name))
                  (VKey.str "versions")))
              (entriesOf kv.2))
            (VKey.str "version") (vkeyToVal kv.1)))) ∧
    (∀ base s, dictGet base (VKey.str "version") = some (PyVal.str s) →
      expand_pkginfo glob_defs defaults tp sp gp base =
        some [init_pkginfo_for_package glob_defs [defaults] base tp sp gp] ∧
      dictGet (init_pkginfo_for_package glob_defs [defaults] base tp sp gp)
        (VKey.str "version") = some (PyVal.str s)) ∧
    (∀ base r, dictGet base (VKey.str "version") = some (PyVal.float r) →
      expand_pkginfo glob_defs defaults tp sp gp base =
        some [init_pkginfo_for_package glob_defs [defaults] base tp sp gp] ∧
      dictGet (init_pkginfo_for_package glob_defs [defaults] base tp sp gp)
        (VKey.str "version") = some (PyVal.float r)) ∧
    (∀ base, dictGet base (VKey.str "version") = some PyVal.none_ →
      expand_pkginfo glob_defs defaults tp sp gp base = some []) := by
  refine ⟨?_, ?_, ?_, ?_⟩
  · intro package_name entries versions_section hv hmaps
    have hmapM : List.mapM (fun (kv : VKey × PyVal) =>
        match kv.2 with
        | PyVal.map v_pkg_section =>
          some (dictSet
            (dictUpdate
              (dictUpdate [(VKey.str "name", PyVal.str package_name)]
                (dictDel (dictSet entries (VKey.str "name") (PyVal.str package_name))
                  (VKey.str "versions")))
              v_pkg_section)
            (VKey.str "version") (vkeyToVal kv.1))
        | _ => none) versions_section =
      some (versions_section.map (fun kv =>
        dictSet
          (dictUpdate
            (dictUpdate [(VKey.str "name", PyVal.str package_name)]
              (dictDel (dictSet entries (VKey.str "name") (PyVal.str package_name))
                (VKey.str "versions")))
            (entriesOf kv.2))
          (VKey.str "version") (vkeyToVal kv.1))) := by
      apply mapM_option_eq_map
      intro kv hkv
      obtain ⟨e, he⟩ := hmaps kv hkv
      rw [he]
      rfl
    simp only [parse_yaml_rule, hv, hmapM]
    rfl
  · intro base s hv
    constructor
    · unfold expand_pkginfo
      rw [hv]
    · exact dictGet_init_version glob_defs [defaults] base tp sp gp hv
        (Or.inl ⟨s, rfl⟩)
  · intro base r hv
    constructor
    · unfold expand_pkginfo
      rw [hv]
    · exact dictGet_init_version glob_defs [defaults] base tp sp gp hv
        (Or.inr ⟨r, rfl⟩)
  · intro base hv
    unfold expand_pkginfo
    rw [hv]

/-- C7 witness: the amended behavior at concrete inputs -- a `versions`
mapping with the single key `latest` parses to one entry whose `version` is
the literal string `"latest"`, and an entry whose `version` is `null` is
dropped by the expansion. -/
theorem parse_yaml_versions_behavior_witness :
    parse_yaml_rule (PackageSection.pkg "foobar" (PyVal.map
        [(VKey.str "a", PyVal.str "x"),
         (VKey.str "versions", PyVal.map [(VKey.str "latest", PyVal.map [])])])) =
      some ([], [(VKey.str "latest", (PyVal.map [] : PyVal))].map (fun kv =>
        dictSet
          (dictUpdate
            (dictUpdate [(VKey.str "name", PyVal.str "foobar")]
              (dictDel
                (dictSet [(VKey.str "a", PyVal.str "x"),
                  (VKey.str "versions", PyVal.map [(VKey.str "latest", PyVal.map [])])]
                  (VKey.str "name") (PyVal.str "foobar"))
                (VKey.str "versions")))
            (entriesOf kv.2))
          (VKey.str "version") (vkeyToVal kv.1))) ∧
    expand_pkginfo [] (some []) none "sp" "gp"
        [(VKey.str "version", PyVal.none_)] = some [] :=
  ⟨(parse_yaml_versions_behavior [] (some []) none "sp" "gp").1 "foobar"
      [(VKey.str "a", PyVal.str "x"),
       (VKey.str "versions", PyVal.map [(VKey.str "latest", PyVal.map [])])]
      [(VKey.str "latest", PyVal.map [])] rfl
      (by intro kv hkv; rw [List.mem_singleton] at hkv; subst hkv; exact ⟨[], rfl⟩),
   (parse_yaml_versions_behavior [] (some []) none "sp" "gp").2.2.2
      [(VKey.str "version", PyVal.none_)] rfl⟩

end Metatools
